import Mathlib

/-!
Verification of the enrichment-and-scheduling engine of a three-tier edge
computing project (QoE enrichment, EDF admission queue, Tier-1 batch
schedulers Dif-Min / Dif-HEFT, Tier-2 budgeted scheduler).

The definitions below are a shallow embedding of the Python sources
`QoE.py`, `tier1.py`, `tier2.py` and `main.py`.  Python floats are modelled
as rationals (`ℚ`), Python `int(...)` as truncation toward zero, a raised
exception (`KeyError`, `ZeroDivisionError`) as `Option.none`, and in-place
dictionary mutation as a functional record update.
-/

namespace Impl

/-- One entry of a SLAM event's `detections` list.  Absent JSON keys are
`none`; `dict.get(key, default)` becomes `Option.getD`. -/
structure Detection where
  near : Option Bool := none
  confidence : Option ℚ := none
deriving DecidableEq

/-- A raw sensor event record (one line of the JSON logs).  Every field a
record may lack is an `Option`. -/
structure Event where
  ts : Option ℚ := none
  obstacle : Option Bool := none
  vo_ok : Option Bool := none
  detections : Option (List Detection) := none
  voice_text : Option String := none
  workload : Option ℚ := none
  Din : Option ℚ := none
  Dout : Option ℚ := none
deriving DecidableEq

/-- The enriched task dictionary produced by `QoE.enrich_task`.  The keys
`deps` and `assigned_tier` are absent on a fresh task (`deps` defaults to
`[]` as in `t.get("deps", [])`; `assigned_tier` is written later by the
callers, modelled by the empty string until set). -/
structure Task where
  task : String
  timestamp : ℚ
  deadline_ms : ℚ
  QoE_class : String
  local_time : ℚ
  local_energy : ℚ
  offload_time : ℚ
  offload_energy : ℚ
  deps : List (ℚ × String) := []
  assigned_tier : String := ""
  data : Event := {}
deriving DecidableEq

/-- `DEADLINE_TABLE.get(task_type, 100)` from `QoE.py`. -/
def deadline_table (task_type : String) : ℤ :=
  if task_type = "slam" then 10
  else if task_type = "voice_recognition" then 150
  else 100

/-- `local_exec` from `QoE.py`: local execution time (ms) and energy (J). -/
def local_exec (w fL alpha beta : ℚ) : ℚ × ℚ :=
  (w / fL, alpha + beta * (w / fL))

/-- `offload_exec` from `QoE.py`: offloaded execution time (ms) and
transmission energy (J). -/
def offload_exec (w f_off Din Dout r_in r_out Pin Pout : ℚ) : ℚ × ℚ :=
  ((Din / r_in + Dout / r_out) + w / f_off,
   (Din / r_in) * Pin + (Dout / r_out) * Pout)

/-- Python `int(q)` on a float: truncation toward zero
(`q.num.tdiv q.den` is the truncated quotient of numerator by
denominator). -/
def pytrunc (q : ℚ) : ℤ := q.num.tdiv q.den

/-- Python `max(list, default=d)`: `d` on the empty list, otherwise the
maximum of the list. -/
def maxD (l : List ℚ) (d : ℚ) : ℚ :=
  match l with
  | [] => d
  | x :: xs => xs.foldl max x

/-- Python's `sub in s` substring test. -/
def strContains (s sub : String) : Bool := decide (sub.toList <:+: s.toList)

/-- The SLAM severity score accumulated by `QoE.enrich_task` (lines 37-49
of `QoE.py`): +50 for an obstacle, +30 for a near detection, −10 for bad
visual odometry, `int(20 * max_confidence)`, +10 for temporal correlation
with the previous task (guarded by Python truthiness of `prev_task_ts`),
+20 if the last voice utterance mentioned "obstacle". -/
def slamScore (ci : Event) (ts : ℚ) (prev_task_ts : Option ℚ)
    (last_voice : Option String) : ℤ :=
  (if ci.obstacle.getD false then 50 else 0)
  + (if (ci.detections.getD []).any (fun det => det.near.getD false) then 30 else 0)
  + (if ci.vo_ok.getD true then 0 else -10)
  + pytrunc (maxD ((ci.detections.getD []).map (fun d => d.confidence.getD 0)) 0 * 20)
  + (match prev_task_ts with
     | some p => if p ≠ 0 ∧ ts - p < 1/20 then 10 else 0
     | none => 0)
  + (match last_voice with
     | some v => if v ≠ "" ∧ strContains v "obstacle" = true then 20 else 0
     | none => 0)

/-- Deadline and QoE class chosen by the SLAM branch of `QoE.enrich_task`
(lines 51-62): `deadline = max(5, base - score)` and the score-threshold
classification. -/
def slamClass (ci : Event) (score : ℤ) : String :=
  if score ≥ 60 then "QoE-Safety"
  else if score ≥ 30 then "QoE-Time"
  else if ¬ ci.vo_ok.getD true then "QoE-Robustness"
  else if score ≤ 0 then "QoE-Insensitive"
  else "QoE-Time"

/-- Deadline and QoE class chosen by the voice branch of `QoE.enrich_task`
(lines 65-75). -/
def voiceRules (ci : Event) : ℤ × String :=
  let vt := (ci.voice_text.getD "").toLower
  if strContains vt "obstacle" then (30, "QoE-Safety")
  else if ["start", "stop", "turn left", "turn right"].any (fun cmd => strContains vt cmd)
  then (60, "QoE-Time")
  else (200, "QoE-Energy")

/-- `QoE.enrich_task`.  Accessing the required key `ci_json["ts"]` raises
`KeyError` when absent, modelled by `none`; on every record that has `ts`
a fully populated task dictionary is returned. -/
def enrich_task (ci : Event) (task_type : String) (prev_task_ts : Option ℚ)
    (last_voice : Option String) : Option Task :=
  match ci.ts with
  | none => none
  | some ts =>
    let base := deadline_table task_type
    let dc : ℤ × String :=
      if task_type = "slam" then
        let score := slamScore ci ts prev_task_ts last_voice
        (max 5 (base - score), slamClass ci score)
      else if task_type = "voice_recognition" then voiceRules ci
      else (base, "QoE-Insensitive")
    let w := ci.workload.getD 100
    let Din := ci.Din.getD 20
    let Dout := ci.Dout.getD 10
    let lc := local_exec w 50 (1/2) (1/5)
    let oc := offload_exec w 200 Din Dout 10 10 (3/10) (1/5)
    some { task := task_type
           timestamp := ts
           deadline_ms := (dc.1 : ℚ)
           QoE_class := dc.2
           local_time := lc.1
           local_energy := lc.2
           offload_time := oc.1
           offload_energy := oc.2
           data := ci }

/-- `tier2.decide_tier`: Safety/Time/Robustness classes are pinned to
Tier-1; otherwise offloading must fit the deadline and save energy. -/
def decide_tier (t : Task) : String :=
  if t.QoE_class = "QoE-Safety" ∨ t.QoE_class = "QoE-Time" ∨ t.QoE_class = "QoE-Robustness"
  then "Tier-1"
  else if t.offload_time ≤ t.deadline_ms ∧ t.offload_energy < t.local_energy
  then "Tier-2"
  else "Tier-1"

/-- `main.add_task` enrichment-and-assignment step: a freshly enriched task
gets `assigned_tier` from the Tier Decision Policy. -/
def assignTier (t : Task) : Task := { t with assigned_tier := decide_tier t }

/-- The SLAM event of the end-to-end example:
`{ts:0, obstacle:true, vo_ok:true, detections:[{near:true,confidence:0.9}], workload:100}`. -/
def exampleSlamEvent : Event :=
  { ts := some 0
    obstacle := some true
    vo_ok := some true
    detections := some [{ near := some true, confidence := some (9/10) }]
    workload := some 100 }

/-- C1: for every task, whatever its cost field values, a QoE class among
Safety/Time/Robustness makes the Tier Decision Policy return Tier-1; such
tasks are never assigned Tier-2. -/
theorem decide_tier_pins_critical_classes (t : Task)
    (h : t.QoE_class = "QoE-Safety" ∨ t.QoE_class = "QoE-Time" ∨
         t.QoE_class = "QoE-Robustness") :
    decide_tier t = "Tier-1" := by
  unfold decide_tier
  rw [if_pos h]

/-- A concrete safety-classed task (the enrichment of the end-to-end
example event), used to exercise the pinned-class theorem. -/
def exampleSafetyTask : Task :=
  { task := "slam"
    timestamp := 0
    deadline_ms := 5
    QoE_class := "QoE-Safety"
    local_time := 2
    local_energy := 9/10
    offload_time := 7/2
    offload_energy := 4/5
    data := exampleSlamEvent }

theorem decide_tier_pins_critical_classes_witness :
    decide_tier exampleSafetyTask = "Tier-1" :=
  decide_tier_pins_critical_classes exampleSafetyTask (Or.inl rfl)

/-- C6: enriching the example SLAM event (no previous-task or voice
context) yields severity score 98 = 50 + 30 + 18, hence class QoE-Safety,
deadline `max(5, 10 - 98) = 5`, and the Tier Decision Policy pins it to
Tier-1. -/
theorem example_slam_event_end_to_end :
    slamScore exampleSlamEvent 0 none none = 98 ∧
    (enrich_task exampleSlamEvent "slam" none none).map (fun t => t.QoE_class)
      = some "QoE-Safety" ∧
    (enrich_task exampleSlamEvent "slam" none none).map (fun t => t.deadline_ms)
      = some ((max 5 (10 - 98) : ℤ) : ℚ) ∧
    (enrich_task exampleSlamEvent "slam" none none).map (fun t => t.deadline_ms)
      = some 5 ∧
    (enrich_task exampleSlamEvent "slam" none none).map decide_tier
      = some "Tier-1" := by
  refine ⟨?_, ?_, ?_, ?_, ?_⟩ <;>
    norm_num [slamScore, enrich_task, exampleSlamEvent, slamClass, deadline_table,
      pytrunc, maxD, strContains, local_exec, offload_exec, decide_tier]

/-- C8: enrichment returns a task exactly when the record carries the
required `ts` field; a record lacking `ts` makes `enrich_task` raise
(`none`), never a silently skipped record or a task without timestamp. -/
theorem enrich_task_requires_ts (ci : Event) (task_type : String)
    (prev_task_ts : Option ℚ) (last_voice : Option String) :
    (enrich_task ci task_type prev_task_ts last_voice).isSome = ci.ts.isSome := by
  cases h : ci.ts <;> simp [enrich_task, h]

/-- A SLAM event at `ts = 0.02`, 20 ms after a previous task at
timestamp `0`. -/
def cexPrevEvent : Event := { ts := some (1/50) }

/-- Counterexample to C9 as stated: with previous-task timestamp `0`
supplied in the rolling context the event occurred within 50 ms of the
previous task (0.02 - 0 < 0.05), yet the severity score receives no +10
bonus, because Python's `if prev_task_ts and ...` treats the timestamp 0
as absent. -/
theorem slam_temporal_bonus_cex :
    ((1 : ℚ)/50 - 0 < 1/20) ∧
    slamScore cexPrevEvent (1/50) (some 0) none
      = slamScore cexPrevEvent (1/50) none none := by
  exact ⟨by norm_num, by norm_num [slamScore, cexPrevEvent, pytrunc, maxD]⟩

/-- C9 amended: the +10 temporal-correlation bonus is granted exactly when
the supplied previous-task timestamp is nonzero (Python truthiness) and
`ts - prev < 0.05` (signed, strict); otherwise the score is unchanged. -/
theorem slam_temporal_bonus (ci : Event) (ts p : ℚ) (last_voice : Option String) :
    slamScore ci ts (some p) last_voice =
      slamScore ci ts none last_voice
        + (if p ≠ 0 ∧ ts - p < 1/20 then 10 else 0) := by
  simp only [slamScore]
  ring

/-- The admission loop of `tier2.schedule_tier2` (lines 98-104): FIFO over
the Tier-2 batch, admitting while the rolling `used_time` stays within the
budget, otherwise relabelling to Tier-1 (the in-place
`t["assigned_tier"] = "Tier-1"` becomes a record update) and collecting the
task in `fallback`. -/
def schedule_tier2_go (max_time : ℚ) : List Task → ℚ → List Task × List Task
  | [], _ => ([], [])
  | t :: ts, used_time =>
    if used_time + t.offload_time ≤ max_time then
      let r := schedule_tier2_go max_time ts (used_time + t.offload_time)
      (t :: r.1, r.2)
    else
      let r := schedule_tier2_go max_time ts used_time
      (r.1, { t with assigned_tier := "Tier-1" } :: r.2)

/-- `tier2.schedule_tier2`: filter the Tier-2 tasks, then run the rolling
admission loop starting from `used_time = 0`.  Returns
`(executed, fallback)`. -/
def schedule_tier2 (tasks_all : List Task) (max_time : ℚ) : List Task × List Task :=
  schedule_tier2_go max_time
    (tasks_all.filter (fun t => t.assigned_tier == "Tier-2")) 0

/-- Total offload time of a list of tasks. -/
def sumOffload (l : List Task) : ℚ := (l.map (fun t => t.offload_time)).sum

theorem sumOffload_nil : sumOffload [] = 0 := rfl

theorem sumOffload_cons (t : Task) (l : List Task) :
    sumOffload (t :: l) = t.offload_time + sumOffload l := by
  simp [sumOffload]

theorem schedule_tier2_go_budget (m : ℚ) (l : List Task) : ∀ u : ℚ,
    (schedule_tier2_go m l u).1 = [] ∨
    u + sumOffload (schedule_tier2_go m l u).1 ≤ m := by
  induction l with
  | nil => intro u; left; rfl
  | cons t ts ih =>
    intro u
    by_cases h : u + t.offload_time ≤ m
    · simp only [schedule_tier2_go, if_pos h]
      rcases ih (u + t.offload_time) with h2 | h2
      · right; rw [sumOffload_cons, h2, sumOffload_nil]; linarith
      · right; rw [sumOffload_cons]; linarith
    · simp only [schedule_tier2_go, if_neg h]
      exact ih u

theorem schedule_tier2_go_cover (m : ℚ) (l : List Task) : ∀ (u : ℚ) (t : Task),
    t ∈ l →
    t ∈ (schedule_tier2_go m l u).1 ∨
    { t with assigned_tier := "Tier-1" } ∈ (schedule_tier2_go m l u).2 := by
  induction l with
  | nil => intro u t ht; cases ht
  | cons s ts ih =>
    intro u t ht
    rcases List.mem_cons.mp ht with rfl | hmem
    · by_cases h : u + t.offload_time ≤ m
      · left; simp only [schedule_tier2_go, if_pos h]; exact List.mem_cons_self _ _
      · right; simp only [schedule_tier2_go, if_neg h]; exact List.mem_cons_self _ _
    · by_cases h : u + s.offload_time ≤ m
      · simp only [schedule_tier2_go, if_pos h]
        rcases ih (u + s.offload_time) t hmem with h2 | h2
        · exact Or.inl (List.mem_cons_of_mem _ h2)
        · exact Or.inr h2
      · simp only [schedule_tier2_go, if_neg h]
        rcases ih u t hmem with h2 | h2
        · exact Or.inl h2
        · exact Or.inr (List.mem_cons_of_mem _ h2)

theorem schedule_tier2_go_exec_sub (m : ℚ) (l : List Task) : ∀ (u : ℚ) (t : Task),
    t ∈ (schedule_tier2_go m l u).1 → t ∈ l := by
  induction l with
  | nil => intro u t ht; cases ht
  | cons s ts ih =>
    intro u t ht
    by_cases h : u + s.offload_time ≤ m
    · simp only [schedule_tier2_go, if_pos h] at ht
      rcases List.mem_cons.mp ht with rfl | hmem
      · exact List.mem_cons_self _ _
      · exact List.mem_cons_of_mem _ (ih _ t hmem)
    · simp only [schedule_tier2_go, if_neg h] at ht
      exact List.mem_cons_of_mem _ (ih _ t ht)

theorem schedule_tier2_go_fb_shape (m : ℚ) (l : List Task) : ∀ (u : ℚ) (t' : Task),
    t' ∈ (schedule_tier2_go m l u).2 →
    ∃ t, t ∈ l ∧ t' = { t with assigned_tier := "Tier-1" } := by
  induction l with
  | nil => intro u t' ht; cases ht
  | cons s ts ih =>
    intro u t' ht
    by_cases h : u + s.offload_time ≤ m
    · simp only [schedule_tier2_go, if_pos h] at ht
      obtain ⟨t, htl, rfl⟩ := ih _ t' ht
      exact ⟨t, List.mem_cons_of_mem _ htl, rfl⟩
    · simp only [schedule_tier2_go, if_neg h] at ht
      rcases List.mem_cons.mp ht with rfl | hmem
      · exact ⟨s, List.mem_cons_self _ _, rfl⟩
      · obtain ⟨t, htl, rfl⟩ := ih _ t' hmem
        exact ⟨t, List.mem_cons_of_mem _ htl, rfl⟩

/-- A task already assigned to Tier-1 (it is dropped by
`schedule_tier2`'s filter and so appears in neither returned set). -/
def cexTier1Task : Task := { exampleSafetyTask with assigned_tier := "Tier-1" }

/-- Counterexample to C2 as stated: for the input list `[cexTier1Task]`
(a task whose `assigned_tier` is Tier-1) and budget `-1`, the executed and
fallback sets are both empty, so the offload-time sum `0` exceeds the
budget and the task appears in neither set — the claim's quantification
over *every* list and *every* budget fails. -/
theorem schedule_tier2_cex :
    ¬ (sumOffload (schedule_tier2 [cexTier1Task] (-1)).1 ≤ -1 ∧
       ∀ t ∈ [cexTier1Task],
         t ∈ (schedule_tier2 [cexTier1Task] (-1)).1 ∨
         { t with assigned_tier := "Tier-1" } ∈ (schedule_tier2 [cexTier1Task] (-1)).2) := by
  have hval : schedule_tier2 [cexTier1Task] (-1) = ([], []) := by
    simp [schedule_tier2, schedule_tier2_go, cexTier1Task, exampleSafetyTask]
  rintro ⟨h1, -⟩
  rw [hval, sumOffload_nil] at h1
  linarith

/-- C2 amended: for a nonnegative budget, the offload-time sum of the
executed set stays within the budget, every *Tier-2 assigned* input task
that is not executed appears in the fallback set, and every fallback task
carries `assigned_tier = "Tier-1"`. -/
theorem schedule_tier2_budget_and_fallback (tasks_all : List Task) (max_time : ℚ)
    (hb : 0 ≤ max_time) :
    sumOffload (schedule_tier2 tasks_all max_time).1 ≤ max_time ∧
    (∀ t ∈ tasks_all, t.assigned_tier = "Tier-2" →
       t ∈ (schedule_tier2 tasks_all max_time).1 ∨
       { t with assigned_tier := "Tier-1" } ∈ (schedule_tier2 tasks_all max_time).2) ∧
    (∀ t' ∈ (schedule_tier2 tasks_all max_time).2, t'.assigned_tier = "Tier-1") := by
  refine ⟨?_, ?_, ?_⟩
  · rcases schedule_tier2_go_budget max_time
      (tasks_all.filter (fun t => t.assigned_tier == "Tier-2")) 0 with h | h
    · rw [schedule_tier2, h, sumOffload_nil]; exact hb
    · rw [schedule_tier2]; linarith
  · intro t ht htier
    exact schedule_tier2_go_cover max_time _ 0 t
      (List.mem_filter.mpr ⟨ht, by simp [htier]⟩)
  · intro t' ht'
    obtain ⟨t, -, rfl⟩ := schedule_tier2_go_fb_shape max_time _ 0 t' ht'
    rfl

/-- A Tier-2 voice task with `offload_time = 40` used in the budget tests
(the spec's three-times-40-against-100 example). -/
def offload40Task (i : ℚ) : Task :=
  { task := "voice_recognition"
    timestamp := i
    deadline_ms := 200
    QoE_class := "QoE-Energy"
    local_time := 10
    local_energy := 3
    offload_time := 40
    offload_energy := 1
    assigned_tier := "Tier-2" }

theorem schedule_tier2_budget_and_fallback_witness :
    sumOffload (schedule_tier2 [offload40Task 0, offload40Task 1, offload40Task 2] 100).1 ≤ 100 ∧
    (∀ t ∈ [offload40Task 0, offload40Task 1, offload40Task 2], t.assigned_tier = "Tier-2" →
       t ∈ (schedule_tier2 [offload40Task 0, offload40Task 1, offload40Task 2] 100).1 ∨
       { t with assigned_tier := "Tier-1" }
         ∈ (schedule_tier2 [offload40Task 0, offload40Task 1, offload40Task 2] 100).2) ∧
    (∀ t' ∈ (schedule_tier2 [offload40Task 0, offload40Task 1, offload40Task 2] 100).2,
       t'.assigned_tier = "Tier-1") :=
  schedule_tier2_budget_and_fallback _ 100 (by norm_num)

/-- C7: the Tier-2 scheduler rewrites nothing but `assigned_tier`.  Every
executed task is returned exactly as it came in; every fallback task is its
input task with only `assigned_tier` rewritten (to Tier-1, once), its QoE
class and all four cost fields untouched.  (`decide_tier` and the Tier-1
batch schedulers are pure functions of the task in this embedding — they
return a tier name resp. an allocation table and cannot rewrite a task,
mirroring that the Python code never assigns to task fields there.) -/
theorem schedule_tier2_frame (tasks_all : List Task) (max_time : ℚ) :
    (∀ t ∈ (schedule_tier2 tasks_all max_time).1, t ∈ tasks_all) ∧
    (∀ t' ∈ (schedule_tier2 tasks_all max_time).2, ∃ t, t ∈ tasks_all ∧
       t' = { t with assigned_tier := "Tier-1" } ∧
       t'.QoE_class = t.QoE_class ∧
       t'.local_time = t.local_time ∧
       t'.local_energy = t.local_energy ∧
       t'.offload_time = t.offload_time ∧
       t'.offload_energy = t.offload_energy) := by
  constructor
  · intro t ht
    exact List.mem_of_mem_filter (schedule_tier2_go_exec_sub max_time _ 0 t ht)
  · intro t' ht'
    obtain ⟨t, htl, rfl⟩ := schedule_tier2_go_fb_shape max_time _ 0 t' ht'
    exact ⟨t, List.mem_of_mem_filter htl, rfl, rfl, rfl, rfl, rfl, rfl⟩

/-- A Tier-2 task whose offload time alone exceeds the 100 ms budget. -/
def bigOffloadTask : Task := { offload40Task 0 with offload_time := 200 }

theorem schedule_tier2_frame_witness :
    ∃ t, t ∈ [bigOffloadTask] ∧
      ({ bigOffloadTask with assigned_tier := "Tier-1" })
        = { t with assigned_tier := "Tier-1" } ∧
      ({ bigOffloadTask with assigned_tier := "Tier-1" }).QoE_class = t.QoE_class ∧
      ({ bigOffloadTask with assigned_tier := "Tier-1" }).local_time = t.local_time ∧
      ({ bigOffloadTask with assigned_tier := "Tier-1" }).local_energy = t.local_energy ∧
      ({ bigOffloadTask with assigned_tier := "Tier-1" }).offload_time = t.offload_time ∧
      ({ bigOffloadTask with assigned_tier := "Tier-1" }).offload_energy = t.offload_energy :=
  (schedule_tier2_frame [bigOffloadTask] 100).2 _
    (by norm_num [schedule_tier2, schedule_tier2_go, bigOffloadTask, offload40Task])

/-- The fixed hardware profile `RESOURCES = ["CPU", "GPU", "DSP"]` of
`tier1.py`. -/
inductive Resource where
  | CPU
  | GPU
  | DSP
deriving DecidableEq

def RESOURCES : List Resource := [Resource.CPU, Resource.GPU, Resource.DSP]

/-- `tier1.build_eet`: per-resource estimated execution times scaled from
the task's `local_time` baseline (CPU ×1.0, GPU ×0.5, DSP ×0.8).  The
`task.get("local_time", 50)` default never fires on an enriched task,
whose `local_time` key always exists (a non-optional field here). -/
def build_eet (t : Task) (r : Resource) : ℚ :=
  match r with
  | Resource.CPU => t.local_time * 1
  | Resource.GPU => t.local_time * (1/2)
  | Resource.DSP => t.local_time * (4/5)

/-- `min(eet.values())` over the CPU/GPU/DSP table. -/
def bestEET (t : Task) : ℚ :=
  min (min (build_eet t Resource.CPU) (build_eet t Resource.GPU)) (build_eet t Resource.DSP)

/-- `max(eet.values())` over the CPU/GPU/DSP table. -/
def worstEET (t : Task) : ℚ :=
  max (max (build_eet t Resource.CPU) (build_eet t Resource.GPU)) (build_eet t Resource.DSP)

/-- The scheduling id `(timestamp, task)` used as allocation key. -/
def tid (t : Task) : ℚ × String := (t.timestamp, t.task)

/-- Allocation tables `{(timestamp, task): (resource, completion_time)}`
as association lists in insertion order. -/
abbrev Alloc : Type := List ((ℚ × String) × (Resource × ℚ))

/-- The Dif-Min selection key `(Div, -Sub)`: Python sorts the `diffs`
list by `(Div, -Sub)` and takes the head, i.e. the first task attaining
the lexicographically least key. -/
def icsKey (t : Task) : ℚ ×ₗ ℚ :=
  toLex (worstEET t / bestEET t, -(worstEET t - bestEET t))

/-- First element of the list attaining the minimal key — the head of the
stably sorted `diffs` list of `tier1.inter_core_schedule`. -/
def pickMin (f : Task → ℚ ×ₗ ℚ) : List Task → Option Task
  | [] => none
  | t :: ts => some (ts.foldl (fun b x => if f x < f b then x else b) t)

theorem foldlMin_mem (f : Task → ℚ ×ₗ ℚ) :
    ∀ (l : List Task) (b : Task),
      l.foldl (fun b x => if f x < f b then x else b) b ∈ b :: l := by
  intro l
  induction l with
  | nil => intro b; exact List.mem_singleton.mpr rfl
  | cons x xs ih =>
    intro b
    simp only [List.foldl_cons]
    rcases List.mem_cons.mp (ih (if f x < f b then x else b)) with h | h
    · rw [h]
      by_cases hc : f x < f b
      · rw [if_pos hc]; exact List.mem_cons_of_mem _ (List.mem_cons_self _ _)
      · rw [if_neg hc]; exact List.mem_cons_self _ _
    · exact List.mem_cons_of_mem _ (List.mem_cons_of_mem _ h)

theorem pickMin_mem (f : Task → ℚ ×ₗ ℚ) (l : List Task) (t : Task)
    (h : pickMin f l = some t) : t ∈ l := by
  match l with
  | [] => cases h
  | s :: ts =>
    simp only [pickMin, Option.some.injEq] at h
    rw [← h]
    exact foldlMin_mem f ts s

/-- The `for res in RESOURCES` minimisation with strict `<` update and
`best_ct = inf` start: the first iteration always takes CPU, later
resources win only strictly. -/
def chooseRes (g : Resource → ℚ) : Resource × ℚ :=
  [Resource.GPU, Resource.DSP].foldl
    (fun best r => if g r < best.2 then (r, g r) else best)
    (Resource.CPU, g Resource.CPU)

theorem chooseRes_spec (g : Resource → ℚ) : ∃ r, chooseRes g = (r, g r) := by
  have main : ∀ (l : List Resource) (b : Resource × ℚ), (∃ r, b = (r, g r)) →
      ∃ r, l.foldl (fun best r => if g r < best.2 then (r, g r) else best) b = (r, g r) := by
    intro l
    induction l with
    | nil => intro b hb; exact hb
    | cons x xs ih =>
      intro b hb
      simp only [List.foldl_cons]
      apply ih
      by_cases hc : g x < b.2
      · rw [if_pos hc]; exact ⟨x, rfl⟩
      · rw [if_neg hc]; exact hb
  exact main _ _ ⟨Resource.CPU, rfl⟩

/-- Pointwise update of a committed-time table (`ET_table[res] = v`). -/
def updTable (f : Resource → ℚ) (r : Resource) (v : ℚ) : Resource → ℚ :=
  fun x => if x = r then v else f x

/-- The `while U:` loop of `tier1.inter_core_schedule`, parametric in the
committed-time table it starts from (the code always starts it from the
zero table).  Each iteration computes `(Div, Sub)` for every unmapped
task — `Div = worst/best` raises `ZeroDivisionError` (`none`) when some
task's best EET is zero — picks the first task with minimal `(Div, -Sub)`,
assigns it to the resource minimising `ET(c) + EET(t, c)`, commits that
time and removes the task.  Returns the allocations and the final table. -/
def ics_run (ET : Resource → ℚ) (acc : Alloc) :
    (U : List Task) → Option (Alloc × (Resource → ℚ))
  | [] => some (acc, ET)
  | t :: ts =>
    if (t :: ts).all (fun x => bestEET x != 0) then
      let ti := (pickMin icsKey (t :: ts)).getD t
      let rc := chooseRes (fun res => ET res + build_eet ti res)
      ics_run (updTable ET rc.1 rc.2) (acc ++ [(tid ti, rc)]) ((t :: ts).erase ti)
    else none
termination_by U => U.length
decreasing_by
  simp_wf
  have hmem : (pickMin icsKey (t :: ts)).getD t ∈ t :: ts := by
    simp only [pickMin, Option.getD_some]
    exact foldlMin_mem icsKey ts t
  rw [List.length_erase_of_mem hmem]
  simp

/-- `tier1.inter_core_schedule` (Dif-Min): batch scheduling starting from
a fresh all-zero committed-time table. -/
def inter_core_schedule (tasks : List Task) : Option Alloc :=
  (ics_run (fun _ => 0) [] tasks).map (fun p => p.1)

/-- `sum(build_eet(t).values()) / len(RESOURCES)` from
`tier1.dif_heft_schedule`. -/
def avg_cost (t : Task) : ℚ :=
  (build_eet t Resource.CPU + build_eet t Resource.GPU + build_eet t Resource.DSP) / 3

/-- `sorted(tasks, key=avg_cost, reverse=True)`: stable descending sort by
average EET. -/
def heftOrder (tasks : List Task) : List Task :=
  tasks.mergeSort (fun a b => decide (avg_cost b ≤ avg_cost a))

/-- The running state of `tier1.dif_heft_schedule`: per-resource ready
times, the `finish_times` dictionary and the allocations. -/
structure HeftState where
  ready : Resource → ℚ
  fin : List ((ℚ × String) × ℚ)
  alloc : Alloc

/-- `finish_times.get(d, 0)` (newest binding first, dictionary
overwrite = cons). -/
def lookupFin (m : List ((ℚ × String) × ℚ)) (d : ℚ × String) : ℚ :=
  match m.find? (fun p => p.1 == d) with
  | some p => p.2
  | none => 0

/-- `max(finish_times.get(d, 0) for d in deps) if deps else 0`. -/
def predFinish (s : HeftState) (deps : List (ℚ × String)) : ℚ :=
  if deps = [] then 0 else maxD (deps.map (lookupFin s.fin)) 0

/-- The inner resource choice of Dif-HEFT: minimise
`max(ready_time[res], pred_finish) + EET[res]` (strict `<` update, CPU
first). -/
def heftChoose (s : HeftState) (t : Task) : Resource × ℚ :=
  chooseRes (fun res => max (s.ready res) (predFinish s t.deps) + build_eet t res)

/-- One iteration of the `for t in sorted_tasks` loop of
`tier1.dif_heft_schedule`. -/
def heftStep (s : HeftState) (t : Task) : HeftState :=
  let rc := heftChoose s t
  { ready := updTable s.ready rc.1 rc.2
    fin := (tid t, rc.2) :: s.fin
    alloc := s.alloc ++ [(tid t, rc)] }

/-- Fresh Dif-HEFT state: `ready_time = 0` on every resource, empty
`finish_times` and allocations. -/
def heftInit : HeftState := ⟨fun _ => 0, [], []⟩

/-- `tier1.dif_heft_schedule`: sort by descending average EET, then fold
the list-scheduling step from the fresh state. -/
def dif_heft_schedule (tasks : List Task) : Alloc :=
  ((heftOrder tasks).foldl heftStep heftInit).alloc

/-- The allocation entries produced step by step by the Dif-HEFT loop. -/
def heftEntries (s : HeftState) : List Task → Alloc
  | [] => []
  | t :: ts => (tid t, heftChoose s t) :: heftEntries (heftStep s t) ts

theorem heft_foldl_alloc : ∀ (l : List Task) (s : HeftState),
    (l.foldl heftStep s).alloc = s.alloc ++ heftEntries s l := by
  intro l
  induction l with
  | nil => intro s; simp [heftEntries]
  | cons t ts ih =>
    intro s
    simp only [List.foldl_cons, heftEntries]
    rw [ih (heftStep s t)]
    show (heftStep s t).alloc ++ _ = _
    simp [heftStep, List.append_assoc]

theorem heftEntries_mem : ∀ (l : List Task) (s : HeftState) (i : Nat)
    (hi : i < l.length),
    (tid (l.get ⟨i, hi⟩),
      heftChoose ((l.take i).foldl heftStep s) (l.get ⟨i, hi⟩)) ∈ heftEntries s l := by
  intro l
  induction l with
  | nil => intro s i hi; cases hi
  | cons t ts ih =>
    intro s i hi
    match i with
    | 0 => simp [heftEntries]
    | Nat.succ j =>
      simp only [heftEntries, List.take_succ_cons, List.foldl_cons, List.get]
      exact List.mem_cons_of_mem _ (ih (heftStep s t) j (Nat.lt_of_succ_lt_succ hi))

/-- Two successive flushes of the Tier-1 batch buffer under Dif-Min:
`main.flush_tier1` hands the buffered batch to
`tier1.inter_core_schedule`, clears the buffer, and the next flush does
the same with the next batch. -/
def flush_twice_min (b1 b2 : List Task) : Option Alloc × Option Alloc :=
  (inter_core_schedule b1, inter_core_schedule b2)

/-- Two successive flushes under Dif-HEFT. -/
def flush_twice_heft (b1 b2 : List Task) : Alloc × Alloc :=
  (dif_heft_schedule b1, dif_heft_schedule b2)

/-- What a committed-time carry-forward would compute for the second
batch: run the Dif-Min loop on `b2` starting from the final
committed-time table left behind by the run on `b1`. -/
def carriedSecond (b1 b2 : List Task) : Option Alloc :=
  (ics_run (fun _ => 0) [] b1).bind
    (fun p => (ics_run p.2 [] b2).map (fun q => q.1))

/-- A Tier-1 task with `local_time = 10`: EETs are CPU 10, GPU 5, DSP 8. -/
def tenTask : Task :=
  { task := "slam", timestamp := 0, deadline_ms := 10, QoE_class := "QoE-Time",
    local_time := 10, local_energy := 5/2, offload_time := 3, offload_energy := 1 }

/-- Counterexample to C3 as stated: scheduling the batch `[tenTask]` and
then the same batch again, the second flush allocates GPU at completion 5
— exactly what a fresh run computes — whereas carrying the first run's
committed time (GPU already loaded with 5) would allocate DSP at 8.  The
second batch's assignment does not account for the first batch's load:
both algorithms reinitialise their tables to zero on every call. -/
theorem tier1_no_carry_cex :
    (flush_twice_min [tenTask] [tenTask]).2 = some [((0, "slam"), (Resource.GPU, 5))] ∧
    carriedSecond [tenTask] [tenTask] = some [((0, "slam"), (Resource.DSP, 8))] ∧
    (flush_twice_min [tenTask] [tenTask]).2 ≠ carriedSecond [tenTask] [tenTask] := by
  have h2 : carriedSecond [tenTask] [tenTask]
      = some [((0, "slam"), (Resource.DSP, 8))] := by
    norm_num [carriedSecond, ics_run, tenTask, bestEET, worstEET, build_eet,
      pickMin, icsKey, chooseRes, updTable, tid, min_def, max_def]
    split_ifs <;> (try simp_all) <;> linarith
  have h1 : (flush_twice_min [tenTask] [tenTask]).2
      = some [((0, "slam"), (Resource.GPU, 5))] := by
    norm_num [flush_twice_min, inter_core_schedule, ics_run, tenTask, bestEET,
      worstEET, build_eet, pickMin, icsKey, chooseRes, updTable, tid, min_def, max_def]
  refine ⟨h1, h2, ?_⟩
  rw [h1, h2]
  simp

/-- C3 amended: each Tier-1 batch algorithm initialises its per-resource
committed-time (resp. ready-time) table to zero on every invocation, so
state accumulates only within a single batch run; across successive batch
runs nothing carries forward — the second flush's result is exactly a
fresh run on the second batch, independent of the first. -/
theorem tier1_batches_independent (b1 b2 : List Task) :
    (flush_twice_min b1 b2).2 = inter_core_schedule b2 ∧
    (flush_twice_heft b1 b2).2 = dif_heft_schedule b2 :=
  ⟨rfl, rfl⟩

/-- C5: in `dif_heft_schedule`, the allocation entry recorded for the
`i`-th task of the processing order has a finish time whose start
(`finish - EET` on the chosen resource) is at least the maximum recorded
finish time of the task's dependencies (`finish_times.get(d, 0)`, so
dependencies without a recorded finish count as 0) at the moment the task
is scheduled. -/
theorem dif_heft_respects_dependencies (tasks : List Task) (i : Nat)
    (hi : i < (heftOrder tasks).length)
    (hdeps : ((heftOrder tasks).get ⟨i, hi⟩).deps ≠ []) :
    (tid ((heftOrder tasks).get ⟨i, hi⟩),
      heftChoose (((heftOrder tasks).take i).foldl heftStep heftInit)
        ((heftOrder tasks).get ⟨i, hi⟩)) ∈ dif_heft_schedule tasks ∧
    predFinish (((heftOrder tasks).take i).foldl heftStep heftInit)
        ((heftOrder tasks).get ⟨i, hi⟩).deps ≤
      (heftChoose (((heftOrder tasks).take i).foldl heftStep heftInit)
          ((heftOrder tasks).get ⟨i, hi⟩)).2
        - build_eet ((heftOrder tasks).get ⟨i, hi⟩)
            (heftChoose (((heftOrder tasks).take i).foldl heftStep heftInit)
              ((heftOrder tasks).get ⟨i, hi⟩)).1 := by
  constructor
  · unfold dif_heft_schedule
    rw [heft_foldl_alloc]
    exact List.mem_append_right _ (heftEntries_mem (heftOrder tasks) heftInit i hi)
  · set s := ((heftOrder tasks).take i).foldl heftStep heftInit
    set t := (heftOrder tasks).get ⟨i, hi⟩
    obtain ⟨r, hr⟩ := chooseRes_spec
      (fun res => max (s.ready res) (predFinish s t.deps) + build_eet t res)
    show predFinish s t.deps ≤ (heftChoose s t).2 - build_eet t (heftChoose s t).1
    rw [heftChoose, hr]
    simp only
    rw [add_sub_cancel_right]
    exact le_max_right _ _

/-- A high-average-cost task with a (dangling) dependency. -/
def depTaskA : Task :=
  { task := "slam", timestamp := 0, deadline_ms := 10, QoE_class := "QoE-Time",
    local_time := 10, local_energy := 5/2, offload_time := 3, offload_energy := 1,
    deps := [(5, "slam")] }

/-- A lower-average-cost task depending on `depTaskA`. -/
def depTaskB : Task :=
  { task := "slam", timestamp := 1, deadline_ms := 10, QoE_class := "QoE-Time",
    local_time := 5, local_energy := 3/2, offload_time := 2, offload_energy := 1,
    deps := [(0, "slam")] }

theorem heftPairLen : 1 < (heftOrder [depTaskA, depTaskB]).length := by
  rw [heftOrder, List.length_mergeSort]
  norm_num

theorem heftPairDeps : ((heftOrder [depTaskA, depTaskB]).get ⟨1, heftPairLen⟩).deps ≠ [] := by
  have hm0 : (heftOrder [depTaskA, depTaskB]).get ⟨1, heftPairLen⟩
      ∈ heftOrder [depTaskA, depTaskB] :=
    List.get_mem (heftOrder [depTaskA, depTaskB]) 1 heftPairLen
  have hm : (heftOrder [depTaskA, depTaskB]).get ⟨1, heftPairLen⟩ ∈ [depTaskA, depTaskB] :=
    List.mem_mergeSort.mp hm0
  simp only [List.mem_cons, List.mem_singleton] at hm
  rcases hm with h | h | h
  · rw [h]; simp [depTaskA]
  · rw [h]; simp [depTaskB]
  · cases h

theorem dif_heft_respects_dependencies_witness :
    (tid ((heftOrder [depTaskA, depTaskB]).get ⟨1, heftPairLen⟩),
      heftChoose (((heftOrder [depTaskA, depTaskB]).take 1).foldl heftStep heftInit)
        ((heftOrder [depTaskA, depTaskB]).get ⟨1, heftPairLen⟩))
      ∈ dif_heft_schedule [depTaskA, depTaskB] ∧
    predFinish (((heftOrder [depTaskA, depTaskB]).take 1).foldl heftStep heftInit)
        ((heftOrder [depTaskA, depTaskB]).get ⟨1, heftPairLen⟩).deps ≤
      (heftChoose (((heftOrder [depTaskA, depTaskB]).take 1).foldl heftStep heftInit)
          ((heftOrder [depTaskA, depTaskB]).get ⟨1, heftPairLen⟩)).2
        - build_eet ((heftOrder [depTaskA, depTaskB]).get ⟨1, heftPairLen⟩)
            (heftChoose (((heftOrder [depTaskA, depTaskB]).take 1).foldl heftStep heftInit)
              ((heftOrder [depTaskA, depTaskB]).get ⟨1, heftPairLen⟩)).1 :=
  dif_heft_respects_dependencies [depTaskA, depTaskB] 1 heftPairLen heftPairDeps

theorem bestEET_pos (t : Task) (h : 0 < t.local_time) : 0 < bestEET t := by
  unfold bestEET build_eet
  refine lt_min_iff.mpr ⟨lt_min_iff.mpr ⟨?_, ?_⟩, ?_⟩
  · linarith
  · have := mul_pos h (show (0:ℚ) < 1/2 by norm_num); linarith
  · have := mul_pos h (show (0:ℚ) < 4/5 by norm_num); linarith

theorem ics_run_total :
    ∀ (U : List Task), (∀ t ∈ U, 0 < t.local_time) →
      ∀ (ET : Resource → ℚ) (acc : Alloc), (ics_run ET acc U).isSome = true := by
  have main : ∀ (n : Nat) (U : List Task), U.length ≤ n →
      (∀ t ∈ U, 0 < t.local_time) →
      ∀ (ET : Resource → ℚ) (acc : Alloc), (ics_run ET acc U).isSome = true := by
    intro n
    induction n with
    | zero =>
      intro U hlen _ ET acc
      have : U = [] := List.length_eq_zero.mp (Nat.le_zero.mp hlen)
      subst this
      simp [ics_run]
    | succ n ih =>
      intro U hlen hpos ET acc
      match U with
      | [] => simp [ics_run]
      | t :: ts =>
        have hall : ((t :: ts).all fun x => bestEET x != 0) = true := by
          rw [List.all_eq_true]
          intro x hx
          rw [bne_iff_ne]
          exact ne_of_gt (bestEET_pos x (hpos x hx))
        have hmem : (pickMin icsKey (t :: ts)).getD t ∈ t :: ts := by
          simp only [pickMin, Option.getD_some]
          exact foldlMin_mem icsKey ts t
        rw [ics_run]
        simp only [hall, if_true]
        apply ih
        · rw [List.length_erase_of_mem hmem]
          simpa using Nat.le_of_succ_le_succ (Nat.le_trans (by simp) hlen)
        · intro x hx
          exact hpos x (List.mem_of_mem_erase hx)
  exact fun U h => main U.length U le_rfl h

/-- The enrichment of a SLAM event with `workload = 0`: its
`local_time = 0/50 = 0`. -/
def workloadZeroEvent : Event := { ts := some 0, workload := some 0 }

/-- The task produced by enriching `workloadZeroEvent`. -/
def zeroLocalTask : Task :=
  { task := "slam", timestamp := 0, deadline_ms := 10,
    QoE_class := "QoE-Insensitive", local_time := 0, local_energy := 1/2,
    offload_time := 3, offload_energy := 4/5, data := workloadZeroEvent }

/-- C10: the Dif-Min scheduler is total on batches whose tasks all have
strictly positive `local_time`; and a task with `local_time = 0` —
reachable from the public interface as the enrichment of an event with
`workload = 0` — makes the `Div = worst/best` computation divide zero by
zero (Python `ZeroDivisionError`, modelled `none`) instead of returning
an allocation. -/
theorem inter_core_schedule_requires_positive_local_time :
    (∀ tasks : List Task, (∀ t ∈ tasks, 0 < t.local_time) →
       (inter_core_schedule tasks).isSome = true) ∧
    enrich_task workloadZeroEvent "slam" none none = some zeroLocalTask ∧
    inter_core_schedule [zeroLocalTask] = none := by
  refine ⟨?_, ?_, ?_⟩
  · intro tasks h
    have h2 := ics_run_total tasks h (fun _ => 0) []
    unfold inter_core_schedule
    rcases hx : ics_run (fun _ => 0) [] tasks with _ | p
    · rw [hx] at h2; cases h2
    · rfl
  · norm_num [enrich_task, workloadZeroEvent, zeroLocalTask, slamScore, slamClass,
      deadline_table, pytrunc, maxD, local_exec, offload_exec]
  · norm_num [inter_core_schedule, ics_run, zeroLocalTask, bestEET, build_eet, min_def]

theorem inter_core_schedule_requires_positive_local_time_witness :
    (inter_core_schedule [exampleSafetyTask]).isSome = true :=
  inter_core_schedule_requires_positive_local_time.1 [exampleSafetyTask]
    (by intro t ht; rcases List.mem_singleton.mp ht with rfl; norm_num [exampleSafetyTask])

/-! The EDF admission queue of `main.py` is a CPython `heapq` binary heap
over keys `(deadline_ms, timestamp)` (`add_task` pushes
`(task["deadline_ms"], task["timestamp"], task)` and `scheduler_loop`
pops).  The heap is modelled below as a list in the standard array layout
(children of `i` at `2i+1`, `2i+2`), with `heappush` appending and
sifting up and `heappop` swapping the last element into the root and
sifting down, as `heapq` does.  (`heapq`'s `_siftup` walks the hole to a
leaf and bubbles the moved element back up; this produces the same heap
relation as the direct sift-down used here, and the popped key sequence —
the only observable the claim speaks about — is the same.) -/

variable {α : Type} [LinearOrder α]

/-- Index of the parent of heap slot `i` (`(i - 1) >> 1`). -/
def parentIdx (i : Nat) : Nat := (i - 1) / 2

theorem parentIdx_lt {i : Nat} (h : 0 < i) : parentIdx i < i := by
  unfold parentIdx; omega

theorem parentIdx_child {i : Nat} (h : 0 < i) :
    i = 2 * parentIdx i + 1 ∨ i = 2 * parentIdx i + 2 := by
  unfold parentIdx; omega

theorem parentIdx_left (k : Nat) : parentIdx (2 * k + 1) = k := by
  unfold parentIdx; omega

theorem parentIdx_right (k : Nat) : parentIdx (2 * k + 2) = k := by
  unfold parentIdx; omega

/-- Swap two (in-range) slots of the array. -/
def hswap (l : List α) (i j : Nat) : List α :=
  match l[i]?, l[j]? with
  | some a, some b => (l.set i b).set j a
  | _, _ => l

theorem hswap_length (l : List α) (i j : Nat) : (hswap l i j).length = l.length := by
  unfold hswap
  rcases l[i]? with _ | a <;> rcases l[j]? with _ | b <;> simp

theorem hswap_getElem? (l : List α) (i j k : Nat) (hi : i < l.length)
    (hj : j < l.length) :
    (hswap l i j)[k]? = if k = j then l[i]? else if k = i then l[j]? else l[k]? := by
  unfold hswap
  simp only [List.getElem?_eq_getElem hi, List.getElem?_eq_getElem hj]
  by_cases hkj : k = j
  · subst hkj
    rw [if_pos rfl, List.getElem?_set_eq (by simpa using hj)]
  · rw [if_neg hkj, List.getElem?_set_ne (fun h => hkj h.symm)]
    by_cases hki : k = i
    · subst hki
      rw [if_pos rfl, List.getElem?_set_eq hi]
    · rw [if_neg hki, List.getElem?_set_ne (fun h => hki h.symm)]

theorem hswap_mem {l : List α} {i j : Nat} {x : α} (h : x ∈ hswap l i j) : x ∈ l := by
  unfold hswap at h
  rcases hi : l[i]? with _ | a <;> rw [hi] at h
  · exact h
  · rcases hj : l[j]? with _ | b <;> rw [hj] at h
    · exact h
    · rcases List.mem_or_eq_of_mem_set h with h2 | rfl
      · rcases List.mem_or_eq_of_mem_set h2 with h3 | rfl
        · exact h3
        · exact List.mem_iff_getElem?.mpr ⟨j, hj⟩
      · exact List.mem_iff_getElem?.mpr ⟨i, hi⟩

/-- The heap relation between slot `i` and its parent. -/
def pairOk (l : List α) (i : Nat) : Prop :=
  ∀ a b, l[parentIdx i]? = some a → l[i]? = some b → a ≤ b

/-- The binary-heap invariant of the array layout: every slot is at least
its parent. -/
def IsHeap (l : List α) : Prop := ∀ i, 0 < i → pairOk l i

theorem isHeap_nil : IsHeap ([] : List α) := by
  intro i _ a b h
  simp at h

theorem IsHeap.root_le {l : List α} (hl : IsHeap l) {a : α} (ha : l[(0 : Nat)]? = some a) :
    ∀ (i : Nat) (b : α), l[i]? = some b → a ≤ b := by
  intro i
  induction i using Nat.strong_induction_on with
  | _ i ih =>
    intro b hb
    rcases Nat.eq_zero_or_pos i with rfl | hpos
    · rw [ha] at hb
      cases hb
      exact le_refl _
    · have hpi : parentIdx i < i := parentIdx_lt hpos
      have hilen : i < l.length := by
        by_contra hc
        rw [List.getElem?_eq_none_iff.mpr (Nat.le_of_not_lt hc)] at hb
        cases hb
      have hplen : parentIdx i < l.length := Nat.lt_trans hpi hilen
      obtain ⟨c, hc⟩ : ∃ c, l[parentIdx i]? = some c :=
        ⟨l[parentIdx i], List.getElem?_eq_getElem hplen⟩
      exact le_trans (ih _ hpi c hc) (hl i hpos c b hc hb)

/-- `heapq._siftdown(heap, 0, pos)`: bubble the item at `pos` up while it
is strictly smaller than its parent (repeated parent swaps produce the
same array as heapq's shift-and-place). -/
def siftUp (l : List α) (i : Nat) : List α :=
  if h0 : i = 0 then l
  else
    match l[i]?, l[parentIdx i]? with
    | some x, some y =>
      if x < y then siftUp (hswap l i (parentIdx i)) (parentIdx i) else l
    | _, _ => l
termination_by i
decreasing_by exact parentIdx_lt (Nat.pos_of_ne_zero h0)

/-- Invariant of the sift-up loop with focus `k`: every parent-child pair
except the one above `k` already satisfies the heap relation, and the
children of `k` are bounded below by `k`'s parent (so a swap cannot break
the pairs below). -/
def UpInv (l : List α) (k : Nat) : Prop :=
  (∀ i, 0 < i → i ≠ k → pairOk l i) ∧
  (0 < k → ∀ c, parentIdx c = k → ∀ a b,
    l[parentIdx k]? = some a → l[c]? = some b → a ≤ b)

theorem getElem?_lt_length {l : List α} {i : Nat} {x : α} (h : l[i]? = some x) :
    i < l.length := by
  by_contra hc
  rw [List.getElem?_eq_none_iff.mpr (Nat.le_of_not_lt hc)] at h
  cases h

theorem UpInv_swap {l : List α} {k : Nat} (hk : 0 < k) {x y : α}
    (hx : l[k]? = some x) (hy : l[parentIdx k]? = some y) (hxy : x < y)
    (inv : UpInv l k) : UpInv (hswap l k (parentIdx k)) (parentIdx k) := by
  have hklen : k < l.length := getElem?_lt_length hx
  have hplen : parentIdx k < l.length := Nat.lt_trans (parentIdx_lt hk) hklen
  have hkp : k ≠ parentIdx k := Nat.ne_of_gt (parentIdx_lt hk)
  have hpk : parentIdx k ≠ k := Nat.ne_of_lt (parentIdx_lt hk)
  have hval : ∀ m : Nat, (hswap l k (parentIdx k))[m]? =
      if m = parentIdx k then some x else if m = k then some y else l[m]? := by
    intro m
    rw [hswap_getElem? l k (parentIdx k) m hklen hplen, hx, hy]
  constructor
  · intro i hi hip a b hpa hib
    rw [hval] at hpa hib
    by_cases hik : i = k
    · subst hik
      rw [if_pos rfl] at hpa
      rw [if_neg hkp, if_pos rfl] at hib
      cases hpa
      cases hib
      exact le_of_lt hxy
    · rw [if_neg hip, if_neg hik] at hib
      by_cases hpik : parentIdx i = k
      · rw [if_neg (by rw [hpik]; exact Ne.symm hpk), if_pos hpik] at hpa
        cases hpa
        exact inv.2 hk i hpik _ b hy hib
      · by_cases hpip : parentIdx i = parentIdx k
        · rw [if_pos hpip] at hpa
          cases hpa
          have hyb : y ≤ b := inv.1 i hi hik y b (by rw [hpip]; exact hy) hib
          exact le_trans (le_of_lt hxy) hyb
        · rw [if_neg hpip, if_neg hpik] at hpa
          exact inv.1 i hi hik a b hpa hib
  · intro hp c hc a b hpa hib
    have hpp_lt : parentIdx (parentIdx k) < parentIdx k := parentIdx_lt hp
    rw [hval] at hpa hib
    have h1 : parentIdx (parentIdx k) ≠ parentIdx k := Nat.ne_of_lt hpp_lt
    have h2 : parentIdx (parentIdx k) ≠ k :=
      Nat.ne_of_lt (Nat.lt_trans hpp_lt (parentIdx_lt hk))
    rw [if_neg h1, if_neg h2] at hpa
    have hay : a ≤ y := inv.1 (parentIdx k) hp hpk a y hpa hy
    by_cases hck : c = k
    · subst hck
      rw [if_neg hkp, if_pos rfl] at hib
      cases hib
      exact hay
    · have hc0 : 0 < c := by
        rcases Nat.eq_zero_or_pos c with rfl | h
        · exfalso
          have : parentIdx 0 = 0 := rfl
          omega
        · exact h
      have hcp : c ≠ parentIdx k := Nat.ne_of_gt (hc ▸ parentIdx_lt hc0)
      rw [if_neg hcp, if_neg hck] at hib
      have hyb : y ≤ b := inv.1 c hc0 hck y b (by rw [hc]; exact hy) hib
      exact le_trans hay hyb

theorem siftUp_isHeap : ∀ (k : Nat) (l : List α), UpInv l k → IsHeap (siftUp l k) := by
  intro k
  induction k using Nat.strong_induction_on with
  | _ k ih =>
    intro l inv
    rw [siftUp]
    by_cases h0 : k = 0
    · rw [dif_pos h0]
      subst h0
      intro i hi
      exact inv.1 i hi (Nat.pos_iff_ne_zero.mp hi)
    · rw [dif_neg h0]
      have hkpos : 0 < k := Nat.pos_of_ne_zero h0
      rcases hx : l[k]? with _ | x
      · simp only [hx]
        intro i hi
        by_cases hik : i = k
        · subst hik
          intro a b _ hb
          rw [hx] at hb
          cases hb
        · exact inv.1 i hi hik
      · rcases hy : l[parentIdx k]? with _ | y
        · exfalso
          have hklen : k < l.length := getElem?_lt_length hx
          have hplen : parentIdx k < l.length := Nat.lt_trans (parentIdx_lt hkpos) hklen
          rw [List.getElem?_eq_getElem hplen] at hy
          cases hy
        · simp only [hx, hy]
          by_cases hlt : x < y
          · rw [if_pos hlt]
            exact ih (parentIdx k) (parentIdx_lt hkpos) _ (UpInv_swap hkpos hx hy hlt inv)
          · rw [if_neg hlt]
            intro i hi
            by_cases hik : i = k
            · subst hik
              intro a b ha hb
              rw [hy] at ha
              rw [hx] at hb
              cases ha
              cases hb
              exact le_of_not_lt hlt
            · exact inv.1 i hi hik

theorem UpInv_append (l : List α) (x : α) (hl : IsHeap l) : UpInv (l ++ [x]) l.length := by
  constructor
  · intro i hi hin a b hpa hib
    by_cases hilen : i < l.length
    · have hplen : parentIdx i < l.length := Nat.lt_trans (parentIdx_lt hi) hilen
      rw [List.getElem?_append_left hplen] at hpa
      rw [List.getElem?_append_left hilen] at hib
      exact hl i hi a b hpa hib
    · have hle : (l ++ [x]).length ≤ i := by
        simp only [List.length_append, List.length_singleton]
        omega
      rw [List.getElem?_eq_none_iff.mpr hle] at hib
      cases hib
  · intro hn c hc a b _ hcb
    have hclen : (l ++ [x]).length ≤ c := by
      simp only [List.length_append, List.length_singleton]
      unfold parentIdx at hc
      omega
    rw [List.getElem?_eq_none_iff.mpr hclen] at hcb
    cases hcb

/-- `heapq.heappush`: append the item and sift it up from the last slot. -/
def heappush (l : List α) (x : α) : List α := siftUp (l ++ [x]) l.length

theorem heappush_isHeap {l : List α} (hl : IsHeap l) (x : α) :
    IsHeap (heappush l x) :=
  siftUp_isHeap _ _ (UpInv_append l x hl)

/-- Index of the smaller child of slot `i`, if any (ties to the left;
which minimal child is taken only permutes equal keys and does not affect
the popped key order). -/
def minChild (l : List α) (i : Nat) : Option Nat :=
  match l[2*i+1]?, l[2*i+2]? with
  | none, _ => none
  | some _, none => some (2*i+1)
  | some a, some b => if b < a then some (2*i+2) else some (2*i+1)

theorem minChild_spec {l : List α} {i c : Nat} (h : minChild l i = some c) :
    parentIdx c = i ∧ i < c ∧ ∃ a, l[c]? = some a := by
  unfold minChild at h
  rcases h1 : l[2*i+1]? with _ | a <;> simp only [h1] at h
  · exact Option.noConfusion h
  · rcases h2 : l[2*i+2]? with _ | b <;> simp only [h2] at h
    · cases h
      exact ⟨parentIdx_left i, by omega, a, h1⟩
    · by_cases hb : b < a
      · simp only [if_pos hb] at h
        cases h
        exact ⟨parentIdx_right i, by omega, b, h2⟩
      · simp only [if_neg hb] at h
        cases h
        exact ⟨parentIdx_left i, by omega, a, h1⟩

theorem minChild_min {l : List α} {i c : Nat} (h : minChild l i = some c)
    {d : Nat} (hd : parentIdx d = i) (hd0 : 0 < d) {a b : α}
    (ha : l[c]? = some a) (hb : l[d]? = some b) : a ≤ b := by
  have hdc : d = 2*i+1 ∨ d = 2*i+2 := by
    have h2 := parentIdx_child hd0
    rw [hd] at h2
    exact h2
  unfold minChild at h
  rcases h1 : l[2*i+1]? with _ | a1 <;> simp only [h1] at h
  · exact Option.noConfusion h
  · rcases h2 : l[2*i+2]? with _ | b1 <;> simp only [h2] at h
    · cases h
      rcases hdc with rfl | rfl
      · rw [h1] at ha hb
        cases ha
        cases hb
        exact le_refl _
      · rw [h2] at hb
        exact Option.noConfusion hb
    · by_cases hba : b1 < a1
      · simp only [if_pos hba] at h
        cases h
        rw [h2] at ha
        cases ha
        rcases hdc with rfl | rfl
        · rw [h1] at hb
          cases hb
          exact le_of_lt hba
        · rw [h2] at hb
          cases hb
          exact le_refl _
      · simp only [if_neg hba] at h
        cases h
        rw [h1] at ha
        cases ha
        rcases hdc with rfl | rfl
        · rw [h1] at hb
          cases hb
          exact le_refl _
        · rw [h2] at hb
          cases hb
          exact le_of_not_lt hba

theorem minChild_none {l : List α} {i : Nat} (h : minChild l i = none)
    {d : Nat} (hd : parentIdx d = i) (hd0 : 0 < d) : l[d]? = none := by
  unfold minChild at h
  rcases h1 : l[2*i+1]? with _ | a1 <;> simp only [h1] at h
  · have hlen : l.length ≤ 2*i+1 := List.getElem?_eq_none_iff.mp h1
    have hdc : d = 2*i+1 ∨ d = 2*i+2 := by
      have h2 := parentIdx_child hd0
      rw [hd] at h2
      exact h2
    apply List.getElem?_eq_none_iff.mpr
    omega
  · rcases h2 : l[2*i+2]? with _ | b1 <;> simp only [h2] at h
    · exact Option.noConfusion h
    · by_cases hba : b1 < a1
      · simp only [if_pos hba] at h
        exact Option.noConfusion h
      · simp only [if_neg hba] at h
        exact Option.noConfusion h

/-- `heapq._siftup(heap, pos)`: move the item at `pos` down, swapping with
the smaller child while that child is strictly smaller.  The walk moves
strictly down the tree, so `l.length` steps always suffice; the fuel is
never exhausted before the loop's own exit condition. -/
def siftDownFuel : Nat → List α → Nat → List α
  | 0, l, _ => l
  | n+1, l, i =>
    match minChild l i, l[i]? with
    | some c, some x =>
      if (l[c]?).getD x < x then siftDownFuel n (hswap l i c) c else l
    | _, _ => l

def siftDown (l : List α) (i : Nat) : List α := siftDownFuel l.length l i

/-- Invariant of the sift-down loop with focus `k`: every parent-child
pair except the ones below `k` holds, and the children of `k` are bounded
below by `k`'s parent. -/
def DownInv (l : List α) (k : Nat) : Prop :=
  (∀ i, 0 < i → parentIdx i ≠ k → pairOk l i) ∧
  (0 < k → ∀ c, parentIdx c = k → ∀ a b,
    l[parentIdx k]? = some a → l[c]? = some b → a ≤ b)

theorem DownInv_swap {l : List α} {k c : Nat} (hmc : minChild l k = some c)
    {x a : α} (hx : l[k]? = some x) (ha : l[c]? = some a) (hax : a < x)
    (inv : DownInv l k) : DownInv (hswap l k c) c := by
  obtain ⟨hpc, hkc, -⟩ := minChild_spec hmc
  have hklen : k < l.length := getElem?_lt_length hx
  have hclen : c < l.length := getElem?_lt_length ha
  have hck : c ≠ k := Nat.ne_of_gt hkc
  have hval : ∀ m : Nat, (hswap l k c)[m]? =
      if m = c then some x else if m = k then some a else l[m]? := by
    intro m
    rw [hswap_getElem? l k c m hklen hclen, hx, ha]
  constructor
  · intro i hi hipc a' b hpa hib
    rw [hval] at hpa hib
    by_cases hic : i = c
    · subst hic
      rw [if_neg (by rw [hpc]; exact Ne.symm hck), if_pos hpc] at hpa
      rw [if_pos rfl] at hib
      cases hpa
      cases hib
      exact le_of_lt hax
    · rw [if_neg hic] at hib
      by_cases hik : i = k
      · subst hik
        rw [if_pos rfl] at hib
        cases hib
        have hp1 : parentIdx i ≠ c := Nat.ne_of_lt (Nat.lt_trans (parentIdx_lt hi) hkc)
        have hp2 : parentIdx i ≠ i := Nat.ne_of_lt (parentIdx_lt hi)
        rw [if_neg hp1, if_neg hp2] at hpa
        exact inv.2 hi c hpc a' _ hpa ha
      · rw [if_neg hik] at hib
        by_cases hpik : parentIdx i = k
        · rw [if_neg (by rw [hpik]; exact Ne.symm hck), if_pos hpik] at hpa
          cases hpa
          exact minChild_min hmc hpik hi ha hib
        · rw [if_neg hipc, if_neg hpik] at hpa
          exact inv.1 i hi hpik a' b hpa hib
  · intro hc0 cc hcc a' b hpa hib
    rw [hval] at hpa hib
    rw [hpc] at hpa
    rw [if_neg (Ne.symm hck), if_pos rfl] at hpa
    cases hpa
    have hcc0 : 0 < cc := by
      rcases Nat.eq_zero_or_pos cc with rfl | h
      · exfalso
        have h0 : parentIdx 0 = 0 := rfl
        omega
      · exact h
    have hccc : c < cc := hcc ▸ parentIdx_lt hcc0
    rw [if_neg (Nat.ne_of_gt hccc), if_neg (Nat.ne_of_gt (Nat.lt_trans hkc hccc))] at hib
    have hpcc : parentIdx cc ≠ k := by
      rw [hcc]
      exact hck
    exact inv.1 cc hcc0 hpcc _ b (by rw [hcc]; exact ha) hib

theorem DownInv_noChild {l : List α} {k : Nat} (inv : DownInv l k)
    (h : minChild l k = none) : IsHeap l := by
  intro i hi
  by_cases hpik : parentIdx i = k
  · intro a b _ hib
    rw [minChild_none h hpik hi] at hib
    cases hib
  · exact inv.1 i hi hpik

theorem DownInv_stop {l : List α} {k c : Nat} (inv : DownInv l k)
    (hmc : minChild l k = some c) {x a : α} (hx : l[k]? = some x)
    (ha : l[c]? = some a) (hax : ¬ a < x) : IsHeap l := by
  intro i hi
  by_cases hpik : parentIdx i = k
  · intro a' b hpa hib
    rw [hpik, hx] at hpa
    cases hpa
    exact le_trans (le_of_not_lt hax) (minChild_min hmc hpik hi ha hib)
  · exact inv.1 i hi hpik

theorem minChild_of_no_room {l : List α} {k : Nat} (h : l.length ≤ k) :
    minChild l k = none := by
  unfold minChild
  have h1 : l[2*k+1]? = none := List.getElem?_eq_none_iff.mpr (by omega)
  rw [h1]

theorem siftDownFuel_isHeap : ∀ (n : Nat) (l : List α) (k : Nat),
    l.length - k ≤ n → DownInv l k → IsHeap (siftDownFuel n l k) := by
  intro n
  induction n with
  | zero =>
    intro l k hle inv
    show IsHeap l
    exact DownInv_noChild inv (minChild_of_no_room (by omega))
  | succ n ih =>
    intro l k hle inv
    rw [siftDownFuel]
    rcases hmc : minChild l k with _ | c
    · exact DownInv_noChild inv hmc
    · obtain ⟨hpc, hkc, a0, ha0⟩ := minChild_spec hmc
      have hclen : c < l.length := getElem?_lt_length ha0
      rcases hx : l[k]? with _ | x
      · exfalso
        have hkl : k < l.length := Nat.lt_trans hkc hclen
        rw [List.getElem?_eq_getElem hkl] at hx
        exact Option.noConfusion hx
      · show IsHeap (if (l[c]?).getD x < x then siftDownFuel n (hswap l k c) c else l)
        rw [ha0, Option.getD_some]
        by_cases hax : a0 < x
        · rw [if_pos hax]
          apply ih
          · rw [hswap_length]
            omega
          · exact DownInv_swap hmc hx ha0 hax inv
        · rw [if_neg hax]
          exact DownInv_stop inv hmc hx ha0 hax

theorem siftDownFuel_length : ∀ (n : Nat) (l : List α) (k : Nat),
    (siftDownFuel n l k).length = l.length := by
  intro n
  induction n with
  | zero => intro l k; rfl
  | succ n ih =>
    intro l k
    rw [siftDownFuel]
    rcases hmc : minChild l k with _ | c
    · rfl
    · rcases hx : l[k]? with _ | x
      · rfl
      · show (if (l[c]?).getD x < x then siftDownFuel n (hswap l k c) c else l).length
            = l.length
        by_cases hax : (l[c]?).getD x < x
        · rw [if_pos hax, ih, hswap_length]
        · rw [if_neg hax]

theorem siftDownFuel_mem : ∀ (n : Nat) (l : List α) (k : Nat) (x : α),
    x ∈ siftDownFuel n l k → x ∈ l := by
  intro n
  induction n with
  | zero => intro l k b hb; exact hb
  | succ n ih =>
    intro l k b hb
    rw [siftDownFuel] at hb
    rcases hmc : minChild l k with _ | c
    · simp only [hmc] at hb
      exact hb
    · rcases hx : l[k]? with _ | x
      · simp only [hmc, hx] at hb
        exact hb
      · simp only [hmc, hx] at hb
        by_cases hax : (l[c]?).getD x < x
        · rw [if_pos hax] at hb
          exact hswap_mem (ih _ _ _ hb)
        · rw [if_neg hax] at hb
          exact hb

theorem siftDown_isHeap {l : List α} {k : Nat} (inv : DownInv l k) :
    IsHeap (siftDown l k) :=
  siftDownFuel_isHeap l.length l k (Nat.sub_le _ _) inv

theorem siftDown_length (l : List α) (k : Nat) :
    (siftDown l k).length = l.length :=
  siftDownFuel_length l.length l k

theorem siftDown_mem {l : List α} {k : Nat} {x : α} (h : x ∈ siftDown l k) :
    x ∈ l :=
  siftDownFuel_mem l.length l k x h

/-- `heapq.heappop`: pop the last element; on a nonempty remainder
return the root, move the last element into slot 0 and sift it down. -/
def heappop : List α → Option (α × List α)
  | [] => none
  | [x] => some (x, [])
  | x :: y :: rest =>
    some (x, siftDown (((x :: y :: rest).dropLast).set 0
      ((x :: y :: rest).getLast (List.cons_ne_nil x (y :: rest)))) 0)

theorem DownInv_pop {l : List α} (hl : IsHeap l) (last : α) :
    DownInv ((l.dropLast).set 0 last) 0 := by
  constructor
  · intro i hi hpi a b hpa hib
    rw [List.getElem?_set_ne (fun h => hpi h.symm)] at hpa
    rw [List.getElem?_set_ne (fun h => (Nat.pos_iff_ne_zero.mp hi) h.symm)] at hib
    rw [List.dropLast_eq_take, List.getElem?_take] at hpa hib
    by_cases h1 : parentIdx i < l.length - 1
    · rw [if_pos h1] at hpa
      by_cases h2 : i < l.length - 1
      · rw [if_pos h2] at hib
        exact hl i hi a b hpa hib
      · rw [if_neg h2] at hib
        exact Option.noConfusion hib
    · rw [if_neg h1] at hpa
      exact Option.noConfusion hpa
  · intro h0
    exact absurd h0 (lt_irrefl 0)

theorem heappop_length {l : List α} {x : α} {l' : List α}
    (h : heappop l = some (x, l')) : l'.length + 1 = l.length := by
  rcases l with _ | ⟨a, _ | ⟨b, rest⟩⟩
  · exact Option.noConfusion h
  · simp only [heappop, Option.some.injEq, Prod.mk.injEq] at h
    obtain ⟨rfl, rfl⟩ := h
    rfl
  · simp only [heappop, Option.some.injEq, Prod.mk.injEq] at h
    obtain ⟨rfl, rfl⟩ := h
    rw [siftDown_length, List.length_set, List.length_dropLast]
    simp

theorem heappop_fst_mem {l : List α} {x : α} {l' : List α}
    (h : heappop l = some (x, l')) : x ∈ l := by
  rcases l with _ | ⟨a, _ | ⟨b, rest⟩⟩
  · exact Option.noConfusion h
  · simp only [heappop, Option.some.injEq, Prod.mk.injEq] at h
    obtain ⟨rfl, -⟩ := h
    exact List.mem_singleton.mpr rfl
  · simp only [heappop, Option.some.injEq, Prod.mk.injEq] at h
    obtain ⟨rfl, -⟩ := h
    exact List.mem_cons_self _ _

theorem heappop_rest_mem {l : List α} {x : α} {l' : List α}
    (h : heappop l = some (x, l')) : ∀ b ∈ l', b ∈ l := by
  rcases l with _ | ⟨a, _ | ⟨b, rest⟩⟩
  · exact Option.noConfusion h
  · simp only [heappop, Option.some.injEq, Prod.mk.injEq] at h
    obtain ⟨-, rfl⟩ := h
    intro c hc
    cases hc
  · simp only [heappop, Option.some.injEq, Prod.mk.injEq] at h
    obtain ⟨-, rfl⟩ := h
    intro c hc
    have hc2 := siftDown_mem hc
    rcases List.mem_or_eq_of_mem_set hc2 with h2 | rfl
    · exact List.take_subset _ _ (List.dropLast_eq_take _ ▸ h2)
    · exact List.getLast_mem _

theorem heappop_min {l : List α} (hl : IsHeap l) {x : α} {l' : List α}
    (h : heappop l = some (x, l')) : ∀ b ∈ l, x ≤ b := by
  have hx : l[(0 : Nat)]? = some x := by
    rcases l with _ | ⟨a, _ | ⟨b, rest⟩⟩
    · exact Option.noConfusion h
    · simp only [heappop, Option.some.injEq, Prod.mk.injEq] at h
      obtain ⟨rfl, -⟩ := h
      rfl
    · simp only [heappop, Option.some.injEq, Prod.mk.injEq] at h
      obtain ⟨rfl, -⟩ := h
      rfl
  intro b hb
  obtain ⟨n, hn⟩ := List.mem_iff_getElem?.mp hb
  exact hl.root_le hx n b hn

theorem heappop_isHeap {l : List α} (hl : IsHeap l) {x : α} {l' : List α}
    (h : heappop l = some (x, l')) : IsHeap l' := by
  rcases l with _ | ⟨a, _ | ⟨b, rest⟩⟩
  · exact Option.noConfusion h
  · simp only [heappop, Option.some.injEq, Prod.mk.injEq] at h
    obtain ⟨-, rfl⟩ := h
    exact isHeap_nil
  · simp only [heappop, Option.some.injEq, Prod.mk.injEq] at h
    obtain ⟨-, rfl⟩ := h
    exact siftDown_isHeap (DownInv_pop hl _)

/-- Drain the queue by successive `heappop`s (each pop removes exactly one
element, so `l.length` pops empty the queue). -/
def popListFuel : Nat → List α → List α
  | 0, _ => []
  | n+1, l =>
    match heappop l with
    | none => []
    | some (x, l') => x :: popListFuel n l'

/-- The full pop sequence of a heap. -/
def popList (l : List α) : List α := popListFuel l.length l

theorem popListFuel_subset : ∀ (n : Nat) (l : List α) (b : α),
    b ∈ popListFuel n l → b ∈ l := by
  intro n
  induction n with
  | zero =>
    intro l b hb
    cases hb
  | succ n ih =>
    intro l b hb
    rw [popListFuel] at hb
    rcases hp : heappop l with _ | ⟨x, l'⟩ <;> simp only [hp] at hb
    · cases hb
    · rcases List.mem_cons.mp hb with rfl | hb2
      · exact heappop_fst_mem hp
      · exact heappop_rest_mem hp b (ih l' b hb2)

theorem popListFuel_sorted : ∀ (n : Nat) (l : List α), IsHeap l →
    List.Sorted (fun a b => a ≤ b) (popListFuel n l) := by
  intro n
  induction n with
  | zero =>
    intro l _
    exact List.sorted_nil
  | succ n ih =>
    intro l hl
    rw [popListFuel]
    rcases hp : heappop l with _ | ⟨x, l'⟩ <;> simp only [hp]
    · exact List.sorted_nil
    · rw [List.sorted_cons]
      refine ⟨?_, ih l' (heappop_isHeap hl hp)⟩
      intro b hb
      exact heappop_min hl hp b (heappop_rest_mem hp b (popListFuel_subset n l' b hb))

theorem popList_sorted {l : List α} (hl : IsHeap l) :
    List.Sorted (fun a b => a ≤ b) (popList l) :=
  popListFuel_sorted l.length l hl

/-- The heap built by pushing a sequence of keys into an initially empty
queue, as the producer side of `main.py` does. -/
def heapOfList (xs : List α) : List α := xs.foldl heappush []

theorem heapOfList_isHeap (xs : List α) : IsHeap (heapOfList xs) := by
  have main : ∀ (ys : List α) (l : List α), IsHeap l → IsHeap (ys.foldl heappush l) := by
    intro ys
    induction ys with
    | nil => exact fun l hl => hl
    | cons y ys ih => exact fun l hl => ih _ (heappush_isHeap hl y)
  exact main xs [] isHeap_nil

/-- The EDF priority key `(deadline_ms, timestamp)` under which
`main.add_task` pushes a task (the task payload itself is only compared on
full key ties, which the spec rules out). -/
def edfKey (t : Task) : ℚ ×ₗ ℚ := toLex (t.deadline_ms, t.timestamp)

/-- C4: pushing any sequence of tasks into the EDF admission queue and
then popping it dry yields keys in non-decreasing `(deadline_ms,
timestamp)` order: earliest deadline first, ties broken by earlier
timestamp. -/
theorem edf_queue_pop_order (tasks : List Task) :
    List.Sorted (fun a b => a ≤ b)
      (popList (tasks.foldl (fun h t => heappush h (edfKey t)) [])) := by
  have heq : tasks.foldl (fun h t => heappush h (edfKey t)) []
      = heapOfList (tasks.map edfKey) := by
    rw [heapOfList, List.foldl_map]
  rw [heq]
  exact popList_sorted (heapOfList_isHeap _)

end Impl
